import Mathlib

set_option maxRecDepth 10000

/-!
Verification of the sinpi/cospi/sincospi core of the special-functions
repository (src/triangle.rs, src/utils.rs) against its specification.

Finite IEEE-754 binary64 values are modelled exactly as signed dyadic
rationals `(-1)^s * m * 2^t`; every arithmetic operation of the source
(multiplication, addition, fused multiply-add, rounding, comparison,
casts) is implemented by exact integer arithmetic followed by a single
round-to-nearest-even step, as IEEE-754 prescribes.
-/

/-- Model of an IEEE-754 binary64 value: NaN, a signed infinity, or a signed
dyadic number `(-1)^s * m * 2^t` (`s = true` means negative).  Canonical
finite values satisfy `m < 2^53` and (`2^52 ≤ m` or `t = -1074`); zero is
`m = 0, t = -1074` (two zeros, `+0` and `-0`). -/
inductive F64 where
  | nan : F64
  | inf : Bool → F64
  | fin : Bool → Nat → Int → F64
deriving DecidableEq, Repr

/-- Fuelled count of binary digits. -/
def bitsAux : Nat → Nat → Nat
  | 0, _ => 0
  | f+1, m => if m = 0 then 0 else bitsAux f (m / 2) + 1

/-- Number of binary digits of a natural number (0 for 0). -/
def nbits (m : Nat) : Nat := bitsAux m m

/-- Exponent `e` with `2^e ≤ p/q < 2^(e+1)`, for positive `p`, `q`. -/
def findExp (p q : Nat) : Int :=
  let e0 : Int := (nbits p : Int) - (nbits q : Int)
  if q * 2^(e0.toNat) ≤ p * 2^((-e0).toNat) then e0 else e0 - 1

/-- Quotient `P / Q` rounded to the nearest integer, ties to even. -/
def rneQuot (P Q : Nat) : Nat :=
  let d := P / Q
  let r := P % Q
  if 2*r < Q then d else if Q < 2*r then d+1 else d + d % 2

/-- Round the positive rational `p/q` to the nearest binary64 (ties to even),
with the given sign; overflow gives infinity.  `p = 0` gives a signed zero. -/
def ofRatPos (sg : Bool) (p q : Nat) : F64 :=
  if p = 0 then .fin sg 0 (-1074) else
  let t := max (findExp p q - 52) (-1074)
  let m := rneQuot (p * 2^((-t).toNat)) (q * 2^(t.toNat))
  if 2^53 ≤ m then
    if 971 < t + 1 then .inf sg else .fin sg (m / 2) (t+1)
  else if 971 < t then .inf sg
  else .fin sg m t

/-- Value `(-1)^sg * m * 2^t` rounded to binary64 (exact when representable). -/
def mkDyadic (sg : Bool) (m : Nat) (t : Int) : F64 :=
  ofRatPos sg (m * 2^(t.toNat)) (2^((-t).toNat))

/-- Binary64 nearest to the decimal `(-1)^sg * man * 10^e10`: models a Rust
f64 literal. -/
def ofDec (sg : Bool) (man : Nat) (e10 : Int) : F64 :=
  if 0 ≤ e10 then ofRatPos sg (man * 10^(e10.toNat)) 1
  else ofRatPos sg man (10^((-e10).toNat))

/-- The double 0.0. -/
def zeroF64 : F64 := .fin false 0 (-1074)

/-- The double 1.0. -/
def oneF64 : F64 := .fin false (2^52) (-52)

/-- The double 2.0. -/
def twoF64 : F64 := .fin false (2^52) (-51)

/-- The double -0.5 (the constant of the range-reduction fma). -/
def negHalfF64 : F64 := .fin true (2^52) (-53)

/-- Model of f64::MAX = (2^53 - 1) * 2^971. -/
def maxF64 : F64 := .fin false (2^53 - 1) 971

/-- Model of std::f64::consts::PI, the binary64 nearest to pi. -/
def piF64 : F64 := ofDec false 3141592653589793 (-15)

/-- The double 2^1023 (the smallest finite x for which 2*x overflows). -/
def pow1023F64 : F64 := .fin false (2^52) 971

/-- The double f64::MAX / 2 = (2^53 - 1) * 2^970 (exact). -/
def maxHalfF64 : F64 := .fin false (2^53 - 1) 970

/-- NaN test (Rust f64::is_nan). -/
def F64.isNan : F64 → Bool
  | .nan => true
  | _ => false

/-- Infinity test (Rust f64::is_infinite). -/
def F64.isInfinite : F64 → Bool
  | .inf _ => true
  | _ => false

/-- Finiteness test. -/
def F64.isFinite : F64 → Bool
  | .fin _ _ _ => true
  | _ => false

/-- Sign bit. -/
def F64.signBit : F64 → Bool
  | .nan => false
  | .inf s => s
  | .fin s _ _ => s

/-- Absolute value (Rust f64::abs): clears the sign bit. -/
def F64.abs : F64 → F64
  | .nan => .nan
  | .inf _ => .inf false
  | .fin _ m t => .fin false m t

/-- Negation. -/
def F64.neg : F64 → F64
  | .nan => .nan
  | .inf s => .inf (!s)
  | .fin s m t => .fin (!s) m t

/-- Rust f64::copysign: magnitude of the first argument, sign of the second. -/
def F64.copysign : F64 → F64 → F64
  | .nan, _ => .nan
  | .inf _, b => .inf b.signBit
  | .fin _ m t, b => .fin b.signBit m t

/-- Comparison of two finite values by exact integer arithmetic. -/
def finLe (s : Bool) (m : Nat) (t : Int) (s' : Bool) (m' : Nat) (t' : Int) : Bool :=
  let e := min t t'
  let a : Int := (cond s (-1) 1) * ((m * 2^((t-e).toNat) : Nat) : Int)
  let b : Int := (cond s' (-1) 1) * ((m' * 2^((t'-e).toNat) : Nat) : Int)
  decide (a ≤ b)

/-- IEEE `≤` on binary64 (false whenever either side is NaN). -/
def fle (a b : F64) : Bool :=
  match a, b with
  | .nan, _ => false
  | _, .nan => false
  | .inf true, _ => true
  | .inf false, .inf false => true
  | .inf false, _ => false
  | _, .inf false => true
  | _, .inf true => false
  | .fin s m t, .fin s' m' t' => finLe s m t s' m' t'

/-- IEEE `≥`. -/
def fge (a b : F64) : Bool := fle b a

/-- IEEE `<`. -/
def flt (a b : F64) : Bool := !(fle b a) && !a.isNan && !b.isNan

/-- Addition of an infinity of sign `sp` to a non-NaN value. -/
def addInfTo (sp : Bool) : F64 → F64
  | .inf s => if s = sp then .inf sp else .nan
  | _ => .inf sp

/-- Fused multiply-add `a*b + c` with a single rounding (Rust f64::mul_add).
The exact product and sum are formed in integer arithmetic and rounded once;
an exact zero from cancellation is `+0`, while a zero product added to a zero
keeps the IEEE sign rules for `(+-0) + (+-0)`. -/
def fmaF64 (a b c : F64) : F64 :=
  match a, b, c with
  | .nan, _, _ => .nan
  | _, .nan, _ => .nan
  | _, _, .nan => .nan
  | .inf s, .inf s', c => addInfTo (s != s') c
  | .inf s, .fin s' m' _, c => if m' = 0 then .nan else addInfTo (s != s') c
  | .fin s m _, .inf s', c => if m = 0 then .nan else addInfTo (s != s') c
  | .fin _ _ _, .fin _ _ _, .inf s3 => .inf s3
  | .fin s1 m1 t1, .fin s2 m2 t2, .fin s3 m3 t3 =>
    let sp := s1 != s2
    let tp := t1 + t2
    let e := min tp t3
    let z : Int := (cond sp (-1) 1) * ((m1 * m2 * 2^((tp - e).toNat) : Nat) : Int)
                 + (cond s3 (-1) 1) * ((m3 * 2^((t3 - e).toNat) : Nat) : Int)
    if z = 0 then
      if m1 * m2 = 0 ∧ m3 = 0 then .fin (sp && s3) 0 (-1074) else .fin false 0 (-1074)
    else mkDyadic (decide (z < 0)) z.natAbs e

/-- IEEE multiplication (Rust f64 `*`). -/
def mulF64 (a b : F64) : F64 :=
  match a, b with
  | .nan, _ => .nan
  | _, .nan => .nan
  | .inf s, .inf s' => .inf (s != s')
  | .inf s, .fin s' m _ => if m = 0 then .nan else .inf (s != s')
  | .fin s m _, .inf s' => if m = 0 then .nan else .inf (s != s')
  | .fin s1 m1 t1, .fin s2 m2 t2 => mkDyadic (s1 != s2) (m1 * m2) (t1 + t2)

/-- IEEE addition: a single rounding of the exact sum (`a + b = fma(1, a, b)`). -/
def addF64 (a b : F64) : F64 := fmaF64 oneF64 a b

/-- IEEE subtraction. -/
def subF64 (a b : F64) : F64 := addF64 a b.neg

/-- Rust f64::round: nearest integer, ties away from zero. -/
def roundF64 : F64 → F64
  | .nan => .nan
  | .inf s => .inf s
  | .fin s m t =>
    if 0 ≤ t then .fin s m t
    else
      let q := 2^((-t).toNat)
      let d := m / q
      let n := if q ≤ 2 * (m % q) then d+1 else d
      mkDyadic s n 0

/-- Rust f64::floor: toward negative infinity. -/
def floorF64 : F64 → F64
  | .nan => .nan
  | .inf s => .inf s
  | .fin s m t =>
    if 0 ≤ t then .fin s m t
    else
      let q := 2^((-t).toNat)
      let d := m / q
      let n := if s = true ∧ m % q ≠ 0 then d+1 else d
      mkDyadic s n 0

/-- Rust saturating cast from f64 to i64 (`as i64`): truncation toward zero,
NaN to 0, saturating at the i64 bounds, infinities to the i64 bounds. -/
def castI64 : F64 → Int
  | .nan => 0
  | .inf false => 2^63 - 1
  | .inf true => -(2^63)
  | .fin s m t =>
    let mag : Nat := if 0 ≤ t then m * 2^(t.toNat) else m / 2^((-t).toNat)
    let v : Int := cond s (-(mag : Int)) (mag : Int)
    max (-(2^63)) (min (2^63 - 1) v)

/-- Coefficients of the sine-kernel polynomial, descending degree
(the inline array in sinpi_kernel, src/triangle.rs). -/
def sinCoeffs : List F64 :=
  [ofDec true 21717412523382308 (-21), ofDec false 4662827319453555 (-19),
   ofDec true 7370429884921779 (-18), ofDec false 8214588658006512 (-17),
   ofDec true 5992645293202981 (-16), ofDec false 25501640398773415 (-16)]

/-- Coefficients of the cosine-kernel polynomial, descending degree
(the inline array in cospi_kernel, src/triangle.rs). -/
def cosCoeffs : List F64 :=
  [ofDec true 10368935675474665 (-20), ofDec false 19294917136379183 (-19),
   ofDec true 25806887811869204 (-18), ofDec false 23533063027900392 (-17),
   ofDec true 13352627688537357 (-16), ofDec false 4058712126416765 (-15)]

/-- Horner evaluation with coefficients in descending degree
(eval_poly from src/utils.rs): fold starting at 0.0 with acc*x + a. -/
def eval_poly (x : F64) (arr : List F64) : F64 :=
  arr.foldl (fun acc a => addF64 (mulF64 acc x) a) zeroF64

/-- Sine kernel sinpi_kernel from src/triangle.rs. -/
def sinpi_kernel (x : F64) : F64 :=
  let x_square := mulF64 x x
  let x_forth := mulF64 x_square x_square
  let r := eval_poly x sinCoeffs
  let tmp := fmaF64 (ofDec true 516771278004997 (-14)) x_square
      (fmaF64 x_forth r (ofDec false 12245907532225998 (-32)))
  fmaF64 piF64 x (mulF64 x tmp)

/-- Cosine kernel cospi_kernel from src/triangle.rs. -/
def cospi_kernel (x : F64) : F64 :=
  let x_square := mulF64 x x
  let r := mulF64 x_square (eval_poly x_square cosCoeffs)
  let a_x_square := mulF64 (ofDec false 4934802200544679 (-15)) x_square
  let a_x_square_lo := fmaF64 (ofDec false 3109686485461973 (-31)) x_square
      (fmaF64 (ofDec false 4934802200544679 (-15)) x_square a_x_square.neg)
  let w := subF64 oneF64 a_x_square
  addF64 w (fmaF64 x_square r (subF64 (subF64 (subF64 oneF64 w) a_x_square) a_x_square_lo))

/-- Top-level sinpi from src/triangle.rs; the panic on infinite input is
modelled as Except.error. -/
def sinpi (x0 : F64) : Except String F64 :=
  if x0.isNan then .ok .nan
  else if x0.isInfinite then .error "sinpi only accepts finite arguments"
  else
    let x := x0.abs
    if fge x (floorF64 maxF64) then .ok (F64.copysign zeroF64 x0)
    else
      let n := roundF64 (mulF64 twoF64 x)
      let rx := fmaF64 negHalfF64 n x
      let q := (castI64 n).emod 4
      let res :=
        if q = 0 then sinpi_kernel rx
        else if q = 1 then cospi_kernel rx
        else if q = 2 then subF64 zeroF64 (sinpi_kernel rx)
        else subF64 zeroF64 (cospi_kernel rx)
      .ok (F64.copysign res x0)

/-- Top-level cospi from src/triangle.rs; the panic on infinite input is
modelled as Except.error. -/
def cospi (x0 : F64) : Except String F64 :=
  if x0.isNan then .ok .nan
  else if x0.isInfinite then .error "cospi only accepts finite arguments"
  else
    let x := x0.abs
    if fge x (floorF64 maxF64) then .ok (F64.copysign oneF64 x0)
    else
      let n := roundF64 (mulF64 twoF64 x)
      let rx := fmaF64 negHalfF64 n x
      let q := (castI64 n).emod 4
      .ok (if q = 0 then cospi_kernel rx
        else if q = 1 then subF64 zeroF64 (sinpi_kernel rx)
        else if q = 2 then subF64 zeroF64 (cospi_kernel rx)
        else sinpi_kernel rx)

/-- Top-level sincospi from src/triangle.rs; the panic on infinite input is
modelled as Except.error. -/
def sincospi (x0 : F64) : Except String (F64 × F64) :=
  if x0.isNan then .ok (.nan, .nan)
  else if x0.isInfinite then .error "sincospi only accepts finite arguments"
  else
    let x := x0.abs
    if fge x (floorF64 maxF64) then
      .ok (F64.copysign zeroF64 x0, F64.copysign oneF64 x0)
    else
      let n := roundF64 (mulF64 twoF64 x)
      let rx := fmaF64 negHalfF64 n x
      let q := (castI64 n).emod 4
      let si := sinpi_kernel rx
      let co := cospi_kernel rx
      .ok (if q = 0 then (F64.copysign si x0, co)
        else if q = 1 then (F64.copysign co x0, subF64 zeroF64 si)
        else if q = 2 then (F64.copysign (subF64 zeroF64 si) x0, subF64 zeroF64 co)
        else (F64.copysign (subF64 zeroF64 co) x0, si))

/-- Validity: the value is NaN, an infinity, or a canonical finite double
(`m < 2^53`, `-1074 ≤ t ≤ 971`, and `2^52 ≤ m` unless `t = -1074`). -/
def ValidB : F64 → Bool
  | .nan => true
  | .inf _ => true
  | .fin _ m t =>
    decide (m < 2^53) && decide (-1074 ≤ t) && decide (t ≤ 971) &&
      (decide (2^52 ≤ m) || decide (t = -1074))

/-- Exact rational value of a finite double (0 for NaN and infinities). -/
def toRat : F64 → ℚ
  | .fin s m t => (cond s (-1) 1) * (m : ℚ) * (2:ℚ)^t
  | _ => 0

/-- Success test for a fallible result. -/
def isOkB {ε α : Type _} : Except ε α → Bool
  | .ok _ => true
  | .error _ => false

/-- Normalisation of a dyadic pair toward the canonical mantissa range,
used only in proofs. -/
def normAux : Nat → Nat → Int → Nat × Int
  | 0, M, T => (M, T)
  | f+1, M, T => if M < 2^52 then normAux f (2*M) (T-1) else (M, T)

/-- Quadrant-table selection of the specification of sinpi (the claimed
return value before any sign copy): `n = round(2x)`, `rx = fma(-0.5, n, x)`,
`q` from the low two bits of the i64 cast of `n`, then the table
`sinK, cosK, -sinK, -cosK`. -/
def sinpiQuadSel (x : F64) : F64 :=
  let n := roundF64 (mulF64 twoF64 x)
  let rx := fmaF64 negHalfF64 n x
  let q := (castI64 n).emod 4
  if q = 0 then sinpi_kernel rx
  else if q = 1 then cospi_kernel rx
  else if q = 2 then subF64 zeroF64 (sinpi_kernel rx)
  else subF64 zeroF64 (cospi_kernel rx)

/-! Arithmetic facts about powers of two used throughout. -/

theorem two_zpow_pos (e : Int) : (0:ℚ) < (2:ℚ)^e := zpow_pos (by norm_num) e

theorem two_zpow_ne (e : Int) : (2:ℚ)^e ≠ 0 := ne_of_gt (two_zpow_pos e)

theorem natCast_two_pow (n : Nat) : ((2^n : Nat) : ℚ) = (2:ℚ)^(n : Int) := by
  push_cast
  rw [zpow_natCast]

theorem two_zpow_mul (a b : Int) : (2:ℚ)^a * (2:ℚ)^b = (2:ℚ)^(a+b) :=
  (zpow_add₀ (by norm_num) a b).symm

theorem two_zpow_le {a b : Int} (h : a ≤ b) : (2:ℚ)^a ≤ (2:ℚ)^b :=
  zpow_le_zpow_right₀ (by norm_num) h

theorem two_zpow_le_iff {a b : Int} : (2:ℚ)^a ≤ (2:ℚ)^b ↔ a ≤ b :=
  zpow_le_zpow_iff_right₀ (by norm_num)

theorem two_zpow_lt_iff {a b : Int} : (2:ℚ)^a < (2:ℚ)^b ↔ a < b :=
  zpow_lt_zpow_iff_right₀ (by norm_num)

/-- Splitting an integer power of two into the two Nat shifts used by the
executable code. -/
theorem two_zpow_toNat_split (e : Int) :
    (2:ℚ)^e * ((2^((-e).toNat) : Nat) : ℚ) = ((2^(e.toNat) : Nat) : ℚ) := by
  rw [natCast_two_pow, natCast_two_pow, two_zpow_mul]
  congr 1
  omega

/-! Correctness of the bit-length function. -/

theorem bitsAux_size : ∀ f m, m ≤ f → bitsAux f m = Nat.size m := by
  intro f
  induction f with
  | zero =>
    intro m hm
    interval_cases m
    simp [bitsAux]
  | succ f ih =>
    intro m hm
    by_cases h0 : m = 0
    · simp [bitsAux, h0]
    · have hdiv : m / 2 ≤ f := by omega
      have hrec : Nat.size m = Nat.size (m / 2) + 1 := by
        conv_lhs => rw [← Nat.bit_decomp m]
        rw [Nat.size_bit, Nat.div2_val]
        rw [Nat.bit_decomp m]
        exact h0
      simp only [bitsAux, h0, if_false]
      rw [ih _ hdiv, hrec]

theorem nbits_size (m : Nat) : nbits m = Nat.size m := bitsAux_size m m le_rfl

theorem nbits_lt (m : Nat) : m < 2^(nbits m) := by
  rw [nbits_size]
  exact Nat.lt_size_self m

theorem nbits_le {m : Nat} (h : m ≠ 0) : 2^(nbits m - 1) ≤ m := by
  rw [nbits_size]
  exact Nat.lt_size.mp (by
    have := Nat.size_pos.mpr (Nat.pos_of_ne_zero h)
    omega)

/-! Correctness of the binade search. -/

/-- The shifted Nat comparison used by findExp decides `2^e * q ≤ p`. -/
theorem cmp_shift_le (e : Int) (p q : Nat) :
    (q * 2^(e.toNat) ≤ p * 2^((-e).toNat)) ↔ ((2:ℚ)^e * q ≤ p) := by
  rw [← Nat.cast_le (α := ℚ)]
  push_cast
  rw [← zpow_natCast (2:ℚ) e.toNat, ← zpow_natCast (2:ℚ) (-e).toNat,
    show ((e.toNat : Nat) : Int) = e + (((-e).toNat : Nat) : Int) by omega,
    ← two_zpow_mul, ← mul_assoc, mul_comm (q:ℚ) ((2:ℚ)^e)]
  exact mul_le_mul_right (two_zpow_pos _)

theorem cmp_shift_lt (e : Int) (p q : Nat) :
    (p * 2^((-e).toNat) < q * 2^(e.toNat)) ↔ ((p:ℚ) < (2:ℚ)^e * q) := by
  rw [← Nat.cast_lt (α := ℚ)]
  push_cast
  rw [← zpow_natCast (2:ℚ) e.toNat, ← zpow_natCast (2:ℚ) (-e).toNat,
    show ((e.toNat : Nat) : Int) = e + (((-e).toNat : Nat) : Int) by omega,
    ← two_zpow_mul, ← mul_assoc, mul_comm (q:ℚ) ((2:ℚ)^e)]
  exact mul_lt_mul_right (two_zpow_pos _)

theorem findExp_correct (p q : Nat) (hp : 0 < p) (hq : 0 < q) :
    (2:ℚ)^(findExp p q) * q ≤ p ∧ (p:ℚ) < (2:ℚ)^(findExp p q + 1) * q := by
  have hnp : 1 ≤ nbits p := by rw [nbits_size]; exact Nat.size_pos.mpr hp
  have hnq : 1 ≤ nbits q := by rw [nbits_size]; exact Nat.size_pos.mpr hq
  have hp2 : (p:ℚ) < (2:ℚ)^((nbits p : Nat) : Int) := by
    rw [← natCast_two_pow]
    exact_mod_cast nbits_lt p
  have hp1 : (2:ℚ)^(((nbits p : Nat) : Int) - 1) ≤ p := by
    rw [show ((nbits p : Nat) : Int) - 1 = (((nbits p - 1 : Nat) : Nat) : Int) by omega,
      ← natCast_two_pow]
    exact_mod_cast nbits_le (Nat.pos_iff_ne_zero.mp hp)
  have hq2 : (q:ℚ) < (2:ℚ)^((nbits q : Nat) : Int) := by
    rw [← natCast_two_pow]
    exact_mod_cast nbits_lt q
  have hq1 : (2:ℚ)^(((nbits q : Nat) : Int) - 1) ≤ q := by
    rw [show ((nbits q : Nat) : Int) - 1 = (((nbits q - 1 : Nat) : Nat) : Int) by omega,
      ← natCast_two_pow]
    exact_mod_cast nbits_le (Nat.pos_iff_ne_zero.mp hq)
  unfold findExp
  dsimp only
  set e0 : Int := (nbits p : Int) - (nbits q : Int) with he0
  split
  · rename_i hcond
    refine ⟨(cmp_shift_le e0 p q).mp hcond, ?_⟩
    calc (p:ℚ) < (2:ℚ)^((nbits p : Nat) : Int) := hp2
      _ = (2:ℚ)^(e0 + 1) * (2:ℚ)^(((nbits q : Nat) : Int) - 1) := by
          rw [two_zpow_mul]
          congr 1
          omega
      _ ≤ (2:ℚ)^(e0 + 1) * q := by
          have := two_zpow_pos (e0 + 1)
          nlinarith
  · rename_i hcond
    push_neg at hcond
    constructor
    · calc (2:ℚ)^(e0 - 1) * q ≤ (2:ℚ)^(e0 - 1) * (2:ℚ)^((nbits q : Nat) : Int) := by
            have := two_zpow_pos (e0 - 1)
            nlinarith
        _ = (2:ℚ)^(((nbits p : Nat) : Int) - 1) := by
            rw [two_zpow_mul]
            congr 1
            omega
        _ ≤ p := hp1
    · have := (cmp_shift_lt e0 p q).mp hcond
      calc (p:ℚ) < (2:ℚ)^e0 * q := this
        _ = (2:ℚ)^(e0 - 1 + 1) * q := by norm_num

/-! Uniqueness of the canonical representation. -/

theorem canon_unique_aux {m m' : Nat} {t t' : Int}
    (h1 : m < 2^53)
    (h2' : 2^52 ≤ m' ∨ t' = -1074) (h3 : -1074 ≤ t)
    (hle : t ≤ t')
    (hv : (m:ℚ) * (2:ℚ)^t = (m':ℚ) * (2:ℚ)^t') : m = m' ∧ t = t' := by
  have h0 : (m:ℚ) = (m':ℚ) * (2:ℚ)^(t'-t) := by
    calc (m:ℚ) = (m:ℚ) * (2:ℚ)^t * (2:ℚ)^(-t) := by
          rw [mul_assoc, two_zpow_mul]
          simp
      _ = (m':ℚ) * (2:ℚ)^t' * (2:ℚ)^(-t) := by rw [hv]
      _ = (m':ℚ) * (2:ℚ)^(t'-t) := by
          rw [mul_assoc, two_zpow_mul, sub_eq_add_neg]
  have h0' : (m:ℚ) = ((m' * 2^((t'-t).toNat) : Nat) : ℚ) := by
    rw [h0]
    push_cast
    rw [← zpow_natCast (2:ℚ) ((t'-t).toNat)]
    congr 2
    omega
  have hnat : m = m' * 2^((t'-t).toNat) := by exact_mod_cast h0'
  rcases eq_or_lt_of_le hle with heq | hlt
  · subst heq
    simp at hnat
    exact ⟨by omega, rfl⟩
  · exfalso
    have hk : 1 ≤ (t'-t).toNat := by omega
    have h2e : 2 ≤ 2^((t'-t).toNat) := by
      calc 2 = 2^1 := rfl
        _ ≤ 2^((t'-t).toNat) := Nat.pow_le_pow_right (by norm_num) hk
    rcases h2' with hm' | ht'
    · have : 2^53 ≤ m := by
        calc 2^53 = 2^52 * 2 := by norm_num
          _ ≤ m' * 2^((t'-t).toNat) := Nat.mul_le_mul hm' h2e
          _ = m := hnat.symm
      omega
    · omega

theorem canon_unique {m m' : Nat} {t t' : Int}
    (h1 : m < 2^53) (h2 : 2^52 ≤ m ∨ t = -1074) (h3 : -1074 ≤ t)
    (h1' : m' < 2^53) (h2' : 2^52 ≤ m' ∨ t' = -1074) (h3' : -1074 ≤ t')
    (hv : (m:ℚ) * (2:ℚ)^t = (m':ℚ) * (2:ℚ)^t') : m = m' ∧ t = t' := by
  rcases le_total t t' with h | h
  · exact canon_unique_aux h1 h2' h3 h hv
  · obtain ⟨a, b⟩ := canon_unique_aux h1' h2 h3' h hv.symm
    exact ⟨a.symm, b.symm⟩

/-! Normalisation toward the canonical mantissa range. -/

theorem normAux_spec : ∀ (f M : Nat) (T : Int), M ≠ 0 → M < 2^53 → -1074 ≤ T →
    (T + 1074).toNat = f →
    ((normAux f M T).1 : ℚ) * (2:ℚ)^((normAux f M T).2) = (M:ℚ) * (2:ℚ)^T ∧
    (normAux f M T).1 ≠ 0 ∧ (normAux f M T).1 < 2^53 ∧
    -1074 ≤ (normAux f M T).2 ∧ (normAux f M T).2 ≤ T ∧
    (2^52 ≤ (normAux f M T).1 ∨ (normAux f M T).2 = -1074) := by
  intro f
  induction f with
  | zero =>
    intro M T hM0 hM hT hf
    have hT0 : T = -1074 := by omega
    subst hT0
    exact ⟨rfl, hM0, hM, le_rfl, le_rfl, Or.inr rfl⟩
  | succ f ih =>
    intro M T hM0 hM hT hf
    by_cases hlt : M < 2^52
    · have hrec : normAux (f+1) M T = normAux f (2*M) (T-1) := by
        show (if M < 2^52 then normAux f (2*M) (T-1) else (M, T)) = normAux f (2*M) (T-1)
        rw [if_pos hlt]
      rw [hrec]
      have hres := ih (2*M) (T-1) (by omega) (by omega) (by omega) (by omega)
      refine ⟨?_, hres.2.1, hres.2.2.1, hres.2.2.2.1, by omega, hres.2.2.2.2.2⟩
      rw [hres.1]
      push_cast
      rw [mul_comm (2:ℚ) (M:ℚ), mul_assoc]
      congr 1
      calc (2:ℚ) * (2:ℚ)^(T-1) = (2:ℚ)^(1:Int) * (2:ℚ)^(T-1) := by norm_num
        _ = (2:ℚ)^T := by rw [two_zpow_mul]; congr 1; omega
    · have hrec : normAux (f+1) M T = (M, T) := by
        show (if M < 2^52 then normAux f (2*M) (T-1) else (M, T)) = (M, T)
        rw [if_neg hlt]
      rw [hrec]
      exact ⟨rfl, hM0, hM, hT, le_rfl, Or.inl (by omega)⟩

/-! Facts about the rounded quotient. -/

theorem rneQuot_ge (P Q : Nat) : P / Q ≤ rneQuot P Q := by
  unfold rneQuot
  dsimp only
  split
  · exact le_rfl
  split <;> omega

theorem rneQuot_le (P Q : Nat) : rneQuot P Q ≤ P / Q + 1 := by
  unfold rneQuot
  dsimp only
  have h2 : P / Q % 2 < 2 := Nat.mod_lt _ (by norm_num)
  split
  · omega
  split <;> omega

theorem rneQuot_exact (P Q : Nat) (hQ : 0 < Q) (h : P % Q = 0) : rneQuot P Q = P / Q := by
  unfold rneQuot
  dsimp only
  rw [h]
  simp [hQ]

theorem rneQuot_le_pow (P Q : Nat) (J : Nat) (hQ : 0 < Q) (h : P ≤ 2^J * Q) :
    rneQuot P Q ≤ 2^J := by
  have hd : P / Q ≤ 2^J := by
    calc P / Q ≤ 2^J * Q / Q := Nat.div_le_div_right h
      _ = 2^J := Nat.mul_div_cancel _ hQ
  rcases eq_or_lt_of_le hd with heq | hlt
  · have hge : 2^J * Q ≤ P := by
      rw [← heq]
      exact Nat.div_mul_le_self P Q
    have hPe : P = 2^J * Q := le_antisymm h hge
    have hmod : P % Q = 0 := by
      rw [hPe]
      exact Nat.mul_mod_left _ _
    rw [rneQuot_exact P Q hQ hmod, heq]
  · exact (rneQuot_le P Q).trans (by omega)

/-! Transfer between the shifted Nat comparisons of ofRatPos and rational
inequalities. -/

theorem natShift_le_iff (p q K : Nat) (t : Int) :
    (p * 2^((-t).toNat) ≤ K * (q * 2^(t.toNat))) ↔ ((p:ℚ) ≤ (2:ℚ)^t * (K * q)) := by
  rw [← Nat.cast_le (α := ℚ)]
  push_cast
  rw [← zpow_natCast (2:ℚ) ((-t).toNat), ← zpow_natCast (2:ℚ) (t.toNat),
    show ((t.toNat : Nat) : Int) = t + (((-t).toNat : Nat) : Int) by omega,
    ← two_zpow_mul,
    show (K:ℚ) * ((q:ℚ) * ((2:ℚ)^t * (2:ℚ)^((((-t).toNat : Nat)) : Int)))
      = ((2:ℚ)^t * ((K:ℚ) * (q:ℚ))) * (2:ℚ)^((((-t).toNat : Nat)) : Int) by ring]
  exact mul_le_mul_right (two_zpow_pos _)

theorem natShift_ge_iff (p q K : Nat) (t : Int) :
    (K * (q * 2^(t.toNat)) ≤ p * 2^((-t).toNat)) ↔ ((2:ℚ)^t * (K * q) ≤ (p:ℚ)) := by
  rw [← Nat.cast_le (α := ℚ)]
  push_cast
  rw [← zpow_natCast (2:ℚ) ((-t).toNat), ← zpow_natCast (2:ℚ) (t.toNat),
    show ((t.toNat : Nat) : Int) = t + (((-t).toNat : Nat) : Int) by omega,
    ← two_zpow_mul,
    show (K:ℚ) * ((q:ℚ) * ((2:ℚ)^t * (2:ℚ)^((((-t).toNat : Nat)) : Int)))
      = ((2:ℚ)^t * ((K:ℚ) * (q:ℚ))) * (2:ℚ)^((((-t).toNat : Nat)) : Int) by ring]
  exact mul_le_mul_right (two_zpow_pos _)

theorem natShift_lt_iff (p q K : Nat) (t : Int) :
    (p * 2^((-t).toNat) < K * (q * 2^(t.toNat))) ↔ ((p:ℚ) < (2:ℚ)^t * (K * q)) := by
  rw [← Nat.cast_lt (α := ℚ)]
  push_cast
  rw [← zpow_natCast (2:ℚ) ((-t).toNat), ← zpow_natCast (2:ℚ) (t.toNat),
    show ((t.toNat : Nat) : Int) = t + (((-t).toNat : Nat) : Int) by omega,
    ← two_zpow_mul,
    show (K:ℚ) * ((q:ℚ) * ((2:ℚ)^t * (2:ℚ)^((((-t).toNat : Nat)) : Int)))
      = ((2:ℚ)^t * ((K:ℚ) * (q:ℚ))) * (2:ℚ)^((((-t).toNat : Nat)) : Int) by ring]
  exact mul_lt_mul_right (two_zpow_pos _)

/-! The three key properties of the rounding routine: it produces canonical
finite values (or infinities), it is exact on representable values, and it
maps values at most `2^j` to results at most `2^j`. -/

theorem ofRatPos_valid (s : Bool) (p q : Nat) (hq : 0 < q) :
    ValidB (ofRatPos s p q) = true := by
  unfold ofRatPos
  by_cases hp0 : p = 0
  · rw [if_pos hp0]
    rfl
  · rw [if_neg hp0]
    dsimp only
    set e := findExp p q with hee
    set t := max (e - 52) (-1074) with het
    set P := p * 2^((-t).toNat) with heP
    set Q := q * 2^(t.toNat) with heQ
    set m := rneQuot P Q with hem
    have hp : 0 < p := Nat.pos_of_ne_zero hp0
    obtain ⟨hlow, hhigh⟩ := findExp_correct p q hp hq
    have ht1 : (-1074:Int) ≤ t := le_max_right _ _
    have ht2 : e - 52 ≤ t := le_max_left _ _
    have hQpos : 0 < Q := Nat.mul_pos hq (pow_pos (by norm_num) _)
    have hPQ : P ≤ 2^53 * Q := by
      rw [heP, heQ]
      refine le_of_lt ((natShift_lt_iff p q (2^53) t).mpr ?_)
      calc (p:ℚ) < (2:ℚ)^(e+1) * q := hhigh
        _ ≤ (2:ℚ)^(t+53) * q :=
            mul_le_mul_of_nonneg_right (two_zpow_le (by omega)) (by positivity)
        _ = (2:ℚ)^t * (((2^53 : Nat) : ℚ) * q) := by
            rw [natCast_two_pow, ← mul_assoc, two_zpow_mul]
            norm_num
    have hm53 : m ≤ 2^53 := rneQuot_le_pow P Q 53 hQpos hPQ
    have hmge : t = e - 52 → 2^52 ≤ m := by
      intro hte
      have hben : 2^52 * Q ≤ P := by
        rw [heP, heQ]
        refine (natShift_ge_iff p q (2^52) t).mpr ?_
        calc (2:ℚ)^t * (((2^52 : Nat) : ℚ) * q) = (2:ℚ)^(t+52) * q := by
              rw [natCast_two_pow, ← mul_assoc, two_zpow_mul]
              norm_num
          _ = (2:ℚ)^e * q := by rw [hte]; norm_num
          _ ≤ p := hlow
      calc (2^52 : Nat) ≤ P / Q := (Nat.le_div_iff_mul_le hQpos).mpr hben
        _ ≤ m := rneQuot_ge P Q
    split
    · rename_i hcarry
      split
      · rfl
      · rename_i hg
        have hm : m = 2^53 := le_antisymm hm53 hcarry
        simp only [ValidB, Bool.and_eq_true, decide_eq_true_iff, Bool.or_eq_true]
        refine ⟨⟨⟨by omega, by omega⟩, by omega⟩, Or.inl (by omega)⟩
    · rename_i hcarry
      split
      · rfl
      · rename_i hg
        simp only [ValidB, Bool.and_eq_true, decide_eq_true_iff, Bool.or_eq_true]
        refine ⟨⟨⟨by omega, by omega⟩, by omega⟩, ?_⟩
        rcases max_choice (e - 52) (-1074 : Int) with hc | hc
        · exact Or.inl (hmge (het.trans hc))
        · exact Or.inr (het.trans hc)

theorem ofRatPos_exact (s : Bool) (p q M : Nat) (T : Int)
    (hq : 0 < q) (hM : M < 2^53) (hT1 : -1074 ≤ T) (hT2 : T ≤ 971)
    (hrep : (p:ℚ) = (M:ℚ) * (2:ℚ)^T * q) :
    ∃ Mc Tc, ofRatPos s p q = .fin s Mc Tc ∧
      (Mc:ℚ) * (2:ℚ)^Tc = (M:ℚ) * (2:ℚ)^T ∧ Mc < 2^53 ∧ -1074 ≤ Tc ∧ Tc ≤ 971 ∧
      (2^52 ≤ Mc ∨ Tc = -1074) := by
  have hq0 : (0:ℚ) < q := by exact_mod_cast hq
  by_cases hM0 : M = 0
  · subst hM0
    have hp0 : p = 0 := by
      have : (p:ℚ) = 0 := by rw [hrep]; ring
      exact_mod_cast this
    subst hp0
    refine ⟨0, -1074, by unfold ofRatPos; rw [if_pos rfl], by push_cast; ring, by omega,
      le_rfl, by omega, Or.inr rfl⟩
  · have hp0 : p ≠ 0 := by
      intro hp
      subst hp
      have : (M:ℚ) * (2:ℚ)^T = 0 := by
        have h0 : (M:ℚ) * (2:ℚ)^T * q = 0 := by exact_mod_cast hrep.symm
        exact (mul_eq_zero.mp h0).resolve_right (by positivity)
      rcases mul_eq_zero.mp this with h | h
      · exact hM0 (by exact_mod_cast h)
      · exact two_zpow_ne T h
    have hp : 0 < p := Nat.pos_of_ne_zero hp0
    obtain ⟨hveq, hMc0, hMc53, hTc1, hTcT, hcanon⟩ :=
      normAux_spec ((T + 1074).toNat) M T hM0 hM hT1 rfl
    set Mc := (normAux ((T + 1074).toNat) M T).1 with hMcDef
    set Tc := (normAux ((T + 1074).toNat) M T).2 with hTcDef
    have hTc2 : Tc ≤ 971 := le_trans hTcT hT2
    have hv : (p:ℚ) = (Mc:ℚ) * (2:ℚ)^Tc * q := by rw [hrep, ← hveq]
    obtain ⟨hlow, hhigh⟩ := findExp_correct p q hp hq
    set e := findExp p q with hee
    have hlow' : (2:ℚ)^e ≤ (Mc:ℚ) * (2:ℚ)^Tc := by
      have := hlow
      rw [hv] at this
      exact le_of_mul_le_mul_right this hq0
    have hhigh' : (Mc:ℚ) * (2:ℚ)^Tc < (2:ℚ)^(e+1) := by
      have := hhigh
      rw [hv] at this
      exact lt_of_mul_lt_mul_right this (by positivity)
    have hte : max (e - 52) (-1074 : Int) = Tc := by
      by_cases h52 : 2^52 ≤ Mc
      · -- normal binade: e = 52 + Tc
        have hl2 : (2:ℚ)^(52 + Tc) ≤ (Mc:ℚ) * (2:ℚ)^Tc := by
          rw [← two_zpow_mul]
          refine mul_le_mul_of_nonneg_right ?_ (le_of_lt (two_zpow_pos Tc))
          calc (2:ℚ)^(52:Int) = ((2^52 : Nat) : ℚ) := by rw [natCast_two_pow]; norm_num
            _ ≤ Mc := by exact_mod_cast h52
        have hu2 : (Mc:ℚ) * (2:ℚ)^Tc < (2:ℚ)^(53 + Tc) := by
          rw [← two_zpow_mul]
          refine mul_lt_mul_of_pos_right ?_ (two_zpow_pos Tc)
          calc (Mc:ℚ) < ((2^53 : Nat) : ℚ) := by exact_mod_cast hMc53
            _ = (2:ℚ)^(53:Int) := by rw [natCast_two_pow]; norm_num
        have h1 : e < 53 + Tc := by
          rw [← two_zpow_lt_iff (a := e) (b := 53 + Tc)]
          exact lt_of_le_of_lt hlow' hu2
        have h2 : 52 + Tc < e + 1 := by
          rw [← two_zpow_lt_iff (a := 52 + Tc) (b := e + 1)]
          exact lt_of_le_of_lt hl2 hhigh'
        have : e = 52 + Tc := by omega
        rw [this]
        rw [show (52 : Int) + Tc - 52 = Tc by omega]
        exact max_eq_left hTc1
      · -- subnormal: Tc = -1074 and the value is below 2^(-1022)
        have hTc74 : Tc = -1074 := hcanon.resolve_left h52
        have hu2 : (Mc:ℚ) * (2:ℚ)^Tc < (2:ℚ)^(52 + Tc) := by
          rw [← two_zpow_mul]
          refine mul_lt_mul_of_pos_right ?_ (two_zpow_pos Tc)
          calc (Mc:ℚ) < ((2^52 : Nat) : ℚ) := by exact_mod_cast (by omega : Mc < 2^52)
            _ = (2:ℚ)^(52:Int) := by rw [natCast_two_pow]; norm_num
        have h1 : e < 52 + Tc := by
          rw [← two_zpow_lt_iff (a := e) (b := 52 + Tc)]
          exact lt_of_le_of_lt hlow' hu2
        rw [hTc74]
        refine max_eq_right (by omega)
    unfold ofRatPos
    rw [if_neg hp0]
    dsimp only
    rw [← hee, hte]
    have hQpos : 0 < q * 2^(Tc.toNat) := Nat.mul_pos hq (pow_pos (by norm_num) _)
    have hPeq : p * 2^((-Tc).toNat) = Mc * (q * 2^(Tc.toNat)) := by
      refine le_antisymm ?_ ?_
      · refine (natShift_le_iff p q Mc Tc).mpr ?_
        rw [hv]
        ring_nf
        exact le_refl _
      · refine (natShift_ge_iff p q Mc Tc).mpr ?_
        rw [hv]
        ring_nf
        exact le_refl _
    have hmod : (p * 2^((-Tc).toNat)) % (q * 2^(Tc.toNat)) = 0 := by
      rw [hPeq]
      exact Nat.mul_mod_left _ _
    have hdiv : (p * 2^((-Tc).toNat)) / (q * 2^(Tc.toNat)) = Mc := by
      rw [hPeq]
      exact Nat.mul_div_cancel Mc hQpos
    rw [rneQuot_exact _ _ hQpos hmod, hdiv]
    rw [if_neg (by omega), if_neg (by omega)]
    exact ⟨Mc, Tc, rfl, hveq, hMc53, hTc1, hTc2, hcanon⟩

theorem ofRatPos_le_pow (s : Bool) (p q : Nat) (j : Int) (hq : 0 < q)
    (hj1 : -1074 ≤ j) (hj2 : j ≤ 971) (hle : (p:ℚ) ≤ (2:ℚ)^j * q) :
    ∃ Mc Tc, ofRatPos s p q = .fin s Mc Tc ∧ (Mc:ℚ) * (2:ℚ)^Tc ≤ (2:ℚ)^j := by
  by_cases hp0 : p = 0
  · refine ⟨0, -1074, by unfold ofRatPos; rw [if_pos hp0], ?_⟩
    push_cast
    rw [zero_mul]
    exact le_of_lt (two_zpow_pos j)
  · have hp : 0 < p := Nat.pos_of_ne_zero hp0
    have hq0 : (0:ℚ) < q := by exact_mod_cast hq
    obtain ⟨hlow, hhigh⟩ := findExp_correct p q hp hq
    set e := findExp p q with hee
    have hej : e ≤ j := by
      rw [← two_zpow_le_iff (a := e) (b := j)]
      have h1 : (2:ℚ)^e * q ≤ (2:ℚ)^j * q := le_trans hlow hle
      exact le_of_mul_le_mul_right h1 hq0
    unfold ofRatPos
    rw [if_neg hp0]
    dsimp only
    rw [← hee]
    set t := max (e - 52) (-1074 : Int) with het
    have ht1 : (-1074:Int) ≤ t := le_max_right _ _
    have ht2 : t ≤ j := max_le (by omega) (by omega)
    have hQpos : 0 < q * 2^(t.toNat) := Nat.mul_pos hq (pow_pos (by norm_num) _)
    have hm : rneQuot (p * 2^((-t).toNat)) (q * 2^(t.toNat)) ≤ 2^((j - t).toNat) := by
      refine rneQuot_le_pow _ _ _ hQpos ?_
      refine (natShift_le_iff p q (2^((j - t).toNat)) t).mpr ?_
      calc (p:ℚ) ≤ (2:ℚ)^j * q := hle
        _ = (2:ℚ)^t * (((2^((j - t).toNat) : Nat) : ℚ) * q) := by
            rw [natCast_two_pow, ← mul_assoc, two_zpow_mul]
            congr 2
            omega
    set m := rneQuot (p * 2^((-t).toNat)) (q * 2^(t.toNat)) with hem
    have hmQ : (m:ℚ) * (2:ℚ)^t ≤ (2:ℚ)^j := by
      calc (m:ℚ) * (2:ℚ)^t ≤ ((2^((j - t).toNat) : Nat) : ℚ) * (2:ℚ)^t := by
            refine mul_le_mul_of_nonneg_right ?_ (le_of_lt (two_zpow_pos t))
            exact_mod_cast hm
        _ = (2:ℚ)^j := by
            rw [natCast_two_pow, two_zpow_mul]
            congr 1
            omega
    split
    · rename_i hcarry
      have hJ53 : 53 ≤ (j - t).toNat := by
        by_contra hcon
        push_neg at hcon
        have : (2:Nat)^((j-t).toNat) ≤ 2^52 := Nat.pow_le_pow_right (by norm_num) (by omega)
        omega
      rw [if_neg (by omega)]
      refine ⟨m / 2, t + 1, rfl, ?_⟩
      have hdm : ((m / 2 : Nat) : ℚ) * (2:ℚ)^(t+1) ≤ (m:ℚ) * (2:ℚ)^t := by
        have h2 : ((m / 2 : Nat) : ℚ) * 2 ≤ (m:ℚ) := by
          have := Nat.div_mul_le_self m 2
          exact_mod_cast this
        calc ((m / 2 : Nat) : ℚ) * (2:ℚ)^(t+1) = ((m / 2 : Nat) : ℚ) * 2 * (2:ℚ)^t := by
              rw [mul_assoc]
              congr 1
              rw [show (2:ℚ) * (2:ℚ)^t = (2:ℚ)^(1:Int) * (2:ℚ)^t by norm_num, two_zpow_mul]
              congr 1
              omega
          _ ≤ (m:ℚ) * (2:ℚ)^t := mul_le_mul_of_nonneg_right h2 (le_of_lt (two_zpow_pos t))
      exact le_trans hdm hmQ
    · rw [if_neg (by omega)]
      exact ⟨m, t, rfl, hmQ⟩

theorem ofRatPos_overflow (s : Bool) (p q : Nat) (hq : 0 < q)
    (hge : (2:ℚ)^(1024:Int) * q ≤ p) : ofRatPos s p q = .inf s := by
  have hq0 : (0:ℚ) < q := by exact_mod_cast hq
  have hp0 : p ≠ 0 := by
    intro h
    subst h
    have h1 : (0:ℚ) < (2:ℚ)^(1024:Int) * q := by positivity
    push_cast at hge
    linarith
  have hp : 0 < p := Nat.pos_of_ne_zero hp0
  obtain ⟨hlow, hhigh⟩ := findExp_correct p q hp hq
  set e := findExp p q with hee
  have he : 1024 ≤ e := by
    have h1 : (2:ℚ)^(1024:Int) * q < (2:ℚ)^(e+1) * q := lt_of_le_of_lt hge hhigh
    have h2 : (2:ℚ)^(1024:Int) < (2:ℚ)^(e+1) := lt_of_mul_lt_mul_right h1 (le_of_lt hq0)
    have := two_zpow_lt_iff.mp h2
    omega
  unfold ofRatPos
  rw [if_neg hp0]
  dsimp only
  rw [← hee]
  have ht : (972:Int) ≤ max (e - 52) (-1074 : Int) := le_trans (by omega) (le_max_left _ _)
  split
  · rw [if_pos (by omega)]
  · rw [if_pos (by omega)]

/-! Lifting the rounding facts to the dyadic constructor and the
arithmetic operations. -/

theorem validB_fin_iff {s : Bool} {m : Nat} {t : Int} :
    ValidB (.fin s m t) = true ↔
      (m < 2^53 ∧ -1074 ≤ t ∧ t ≤ 971 ∧ (2^52 ≤ m ∨ t = -1074)) := by
  simp [ValidB, Bool.and_eq_true, decide_eq_true_iff, Bool.or_eq_true, and_assoc]

theorem abs_toRat_fin (s : Bool) (m : Nat) (t : Int) :
    |toRat (.fin s m t)| = (m:ℚ) * (2:ℚ)^t := by
  cases s
  · show |(1:ℚ) * (m:ℚ) * (2:ℚ)^t| = (m:ℚ) * (2:ℚ)^t
    rw [one_mul]
    exact abs_of_nonneg (by positivity)
  · show |(-1:ℚ) * (m:ℚ) * (2:ℚ)^t| = (m:ℚ) * (2:ℚ)^t
    rw [show (-1:ℚ) * (m:ℚ) * (2:ℚ)^t = -((m:ℚ) * (2:ℚ)^t) by ring, abs_neg]
    exact abs_of_nonneg (by positivity)

theorem mkDyadic_exact (s : Bool) (M : Nat) (T : Int) (M' : Nat) (T' : Int)
    (hM' : M' < 2^53) (hT1 : -1074 ≤ T') (hT2 : T' ≤ 971)
    (hval : (M:ℚ) * (2:ℚ)^T = (M':ℚ) * (2:ℚ)^T') :
    ∃ Mc Tc, mkDyadic s M T = .fin s Mc Tc ∧
      (Mc:ℚ) * (2:ℚ)^Tc = (M:ℚ) * (2:ℚ)^T ∧ Mc < 2^53 ∧ -1074 ≤ Tc ∧ Tc ≤ 971 ∧
      (2^52 ≤ Mc ∨ Tc = -1074) := by
  have hq : 0 < 2^((-T).toNat) := pow_pos (by norm_num) _
  have hrep : ((M * 2^(T.toNat) : Nat) : ℚ)
      = (M':ℚ) * (2:ℚ)^T' * ((2^((-T).toNat) : Nat) : ℚ) := by
    push_cast
    rw [← zpow_natCast (2:ℚ) (T.toNat), ← zpow_natCast (2:ℚ) ((-T).toNat),
      show ((T.toNat : Nat) : Int) = T + (((-T).toNat : Nat) : Int) by omega,
      ← two_zpow_mul, ← mul_assoc, hval]
  obtain ⟨Mc, Tc, h1, h2, h3, h4, h5, h6⟩ :=
    ofRatPos_exact s (M * 2^(T.toNat)) (2^((-T).toNat)) M' T' hq hM' hT1 hT2 (by
      exact_mod_cast hrep)
  refine ⟨Mc, Tc, h1, ?_, h3, h4, h5, h6⟩
  rw [h2, ← hval]

theorem mulF64_two_exact (s : Bool) (m : Nat) (t : Int)
    (hv : ValidB (.fin s m t) = true)
    (hlt : (m:ℚ) * (2:ℚ)^t < (2:ℚ)^(1023:Int)) :
    ∃ Mc Tc, mulF64 twoF64 (.fin s m t) = .fin s Mc Tc ∧
      (Mc:ℚ) * (2:ℚ)^Tc = 2 * ((m:ℚ) * (2:ℚ)^t) ∧ ValidB (.fin s Mc Tc) = true := by
  obtain ⟨hm53, ht1, ht2, hdisj⟩ := validB_fin_iff.mp hv
  have ht970 : t ≤ 970 := by
    rcases hdisj with h52 | h74
    · have hl : (2:ℚ)^(52 + t) ≤ (m:ℚ) * (2:ℚ)^t := by
        rw [← two_zpow_mul]
        refine mul_le_mul_of_nonneg_right ?_ (le_of_lt (two_zpow_pos t))
        calc (2:ℚ)^(52:Int) = ((2^52 : Nat) : ℚ) := by rw [natCast_two_pow]; norm_num
          _ ≤ m := by exact_mod_cast h52
      have := two_zpow_lt_iff.mp (lt_of_le_of_lt hl hlt)
      omega
    · omega
  have hmul : mulF64 twoF64 (.fin s m t) = mkDyadic s (2^52 * m) (-51 + t) := by
    show mkDyadic (false != s) (2^52 * m) (-51 + t) = mkDyadic s (2^52 * m) (-51 + t)
    cases s <;> rfl
  rw [hmul]
  have hval : ((2^52 * m : Nat) : ℚ) * (2:ℚ)^(-51 + t) = (m:ℚ) * (2:ℚ)^(t + 1) := by
    calc ((2^52 * m : Nat) : ℚ) * (2:ℚ)^(-51 + t)
        = (m:ℚ) * ((2:ℚ)^(((52:Nat)) : Int) * (2:ℚ)^(-51 + t)) := by
          rw [Nat.cast_mul, natCast_two_pow]
          ring
      _ = (m:ℚ) * (2:ℚ)^(t + 1) := by
          rw [two_zpow_mul]
          congr 2
          omega
  obtain ⟨Mc, Tc, h1, h2, h3, h4, h5, h6⟩ :=
    mkDyadic_exact s (2^52 * m) (-51 + t) m (t + 1) hm53 (by omega) (by omega) hval
  refine ⟨Mc, Tc, h1, ?_, validB_fin_iff.mpr ⟨h3, h4, h5, h6⟩⟩
  rw [h2, hval,
    show (2:ℚ) * ((m:ℚ) * (2:ℚ)^t) = (m:ℚ) * ((2:ℚ)^(1:Int) * (2:ℚ)^t) by ring,
    two_zpow_mul]
  congr 2
  omega

theorem roundF64_int (s : Bool) (m : Nat) (t : Int)
    (hv : ValidB (.fin s m t) = true) :
    ∃ (Mc : Nat) (Tc : Int) (N : Nat), roundF64 (.fin s m t) = .fin s Mc Tc ∧
      ValidB (.fin s Mc Tc) = true ∧
      (Mc:ℚ) * (2:ℚ)^Tc = (N:ℚ) ∧
      |(N:ℚ) - (m:ℚ) * (2:ℚ)^t| ≤ 1/2 := by
  obtain ⟨hm53, ht1, ht2, hdisj⟩ := validB_fin_iff.mp hv
  by_cases hts : 0 ≤ t
  · refine ⟨m, t, m * 2^(t.toNat), ?_, hv, ?_, ?_⟩
    · show (if 0 ≤ t then F64.fin s m t else _) = F64.fin s m t
      rw [if_pos hts]
    · push_cast
      rw [← zpow_natCast (2:ℚ) (t.toNat)]
      congr 2
      omega
    · push_cast
      rw [← zpow_natCast (2:ℚ) (t.toNat), show ((t.toNat : Nat) : Int) = t by omega]
      simp
  · push_neg at hts
    have hred : roundF64 (.fin s m t)
        = mkDyadic s (if 2^((-t).toNat) ≤ 2 * (m % 2^((-t).toNat))
            then m / 2^((-t).toNat) + 1 else m / 2^((-t).toNat)) 0 := by
      show (if 0 ≤ t then F64.fin s m t else _) = _
      rw [if_neg (by omega)]
    set qq := 2^((-t).toNat) with hqq
    set d := m / qq with hd
    set r := m % qq with hr
    set n := if qq ≤ 2 * r then d + 1 else d with hn
    have hqpos : 0 < qq := pow_pos (by norm_num) _
    have hrlt : r < qq := Nat.mod_lt _ hqpos
    have hdm : d ≤ m := Nat.div_le_self _ _
    have hn53 : n ≤ 2^53 := by
      rw [hn]
      split <;> omega
    -- the rational identity (qq : ℚ) * 2^t = 1
    have hqq1 : ((qq : Nat) : ℚ) * (2:ℚ)^t = 1 := by
      rw [hqq, natCast_two_pow, two_zpow_mul,
        show (((-t).toNat : Nat) : Int) + t = 0 by omega]
      norm_num
    have hsplit : (m:ℚ) * (2:ℚ)^t = (d:ℚ) + (r:ℚ) * (2:ℚ)^t := by
      have hm : (m:ℚ) = (d:ℚ) * (qq:ℚ) + (r:ℚ) := by
        have hnat : d * qq + r = m := by
          rw [hd, hr, Nat.mul_comm]
          exact Nat.div_add_mod m qq
        exact_mod_cast hnat.symm
      calc (m:ℚ) * (2:ℚ)^t = ((d:ℚ) * (qq:ℚ) + (r:ℚ)) * (2:ℚ)^t := by rw [hm]
        _ = (d:ℚ) * ((qq:ℚ) * (2:ℚ)^t) + (r:ℚ) * (2:ℚ)^t := by ring
        _ = (d:ℚ) + (r:ℚ) * (2:ℚ)^t := by rw [hqq1]; ring
    have hrt : 0 ≤ (r:ℚ) * (2:ℚ)^t := by positivity
    have hrt1 : (r:ℚ) * (2:ℚ)^t < 1 := by
      calc (r:ℚ) * (2:ℚ)^t < (qq:ℚ) * (2:ℚ)^t := by
            refine mul_lt_mul_of_pos_right ?_ (two_zpow_pos t)
            exact_mod_cast hrlt
        _ = 1 := hqq1
    have hbound : |(n:ℚ) - (m:ℚ) * (2:ℚ)^t| ≤ 1/2 := by
      rw [hsplit]
      rw [hn]
      split
      · rename_i hup
        have h2r : (qq:ℚ) ≤ 2 * r := by exact_mod_cast hup
        have hg : (1:ℚ)/2 ≤ (r:ℚ) * (2:ℚ)^t := by
          have h3 : (qq:ℚ) * (2:ℚ)^t ≤ 2 * r * (2:ℚ)^t :=
            mul_le_mul_of_nonneg_right h2r (le_of_lt (two_zpow_pos t))
          rw [hqq1] at h3
          linarith
        rw [show ((d + 1 : Nat) : ℚ) - ((d:ℚ) + (r:ℚ) * (2:ℚ)^t)
          = 1 - (r:ℚ) * (2:ℚ)^t by push_cast; ring]
        rw [abs_of_nonneg (by linarith)]
        linarith
      · rename_i hdown
        push_neg at hdown
        have h2r : 2 * (r:ℚ) < qq := by exact_mod_cast hdown
        have hg : (r:ℚ) * (2:ℚ)^t < 1/2 := by
          have h3 : 2 * (r:ℚ) * (2:ℚ)^t < (qq:ℚ) * (2:ℚ)^t :=
            mul_lt_mul_of_pos_right h2r (two_zpow_pos t)
          rw [hqq1] at h3
          linarith
        rw [show ((d : Nat) : ℚ) - ((d:ℚ) + (r:ℚ) * (2:ℚ)^t)
          = -((r:ℚ) * (2:ℚ)^t) by ring]
        rw [abs_neg, abs_of_nonneg hrt]
        linarith
    rw [hred]
    by_cases hn2 : n = 2^53
    · obtain ⟨Mc, Tc, h1, h2, h3, h4, h5, h6⟩ :=
        mkDyadic_exact s n 0 (2^52) 1 (by norm_num) (by norm_num) (by norm_num) (by
          rw [hn2, zpow_zero, zpow_one]
          push_cast
          norm_num)
      exact ⟨Mc, Tc, n, h1, validB_fin_iff.mpr ⟨h3, h4, h5, h6⟩, by
        rw [h2, zpow_zero, mul_one], hbound⟩
    · obtain ⟨Mc, Tc, h1, h2, h3, h4, h5, h6⟩ :=
        mkDyadic_exact s n 0 n 0 (by omega) (by norm_num) (by norm_num) rfl
      exact ⟨Mc, Tc, n, h1, validB_fin_iff.mpr ⟨h3, h4, h5, h6⟩, by
        rw [h2, zpow_zero, mul_one], hbound⟩

/-! Exact value of the fused multiply-add on finite operands, and the
bound on its rounded result. -/

theorem cast_condSign (s : Bool) : ((cond s (-1:Int) 1 : Int) : ℚ) = cond s (-1:ℚ) 1 := by
  cases s <;> norm_num

theorem condSign_mul (s1 s2 : Bool) :
    (cond (s1 != s2) (-1:ℚ) 1) = (cond s1 (-1:ℚ) 1) * (cond s2 (-1:ℚ) 1) := by
  cases s1 <;> cases s2 <;> norm_num

theorem fma_z_val (s1 s2 s3 : Bool) (m1 m2 m3 : Nat) (t1 t2 t3 : Int) :
    (((cond (s1 != s2) (-1:Int) 1)
        * ((m1 * m2 * 2^((t1 + t2 - min (t1 + t2) t3).toNat) : Nat) : Int)
      + (cond s3 (-1:Int) 1)
        * ((m3 * 2^((t3 - min (t1 + t2) t3).toNat) : Nat) : Int) : Int) : ℚ)
      * (2:ℚ)^(min (t1 + t2) t3)
      = toRat (.fin s1 m1 t1) * toRat (.fin s2 m2 t2) + toRat (.fin s3 m3 t3) := by
  have hA : ((2:ℚ)^((t1 + t2 - min (t1 + t2) t3).toNat)) * (2:ℚ)^(min (t1 + t2) t3)
      = (2:ℚ)^t1 * (2:ℚ)^t2 := by
    rw [← zpow_natCast (2:ℚ) ((t1 + t2 - min (t1 + t2) t3).toNat), two_zpow_mul, two_zpow_mul]
    congr 1
    omega
  have hB : ((2:ℚ)^((t3 - min (t1 + t2) t3).toNat)) * (2:ℚ)^(min (t1 + t2) t3)
      = (2:ℚ)^t3 := by
    rw [← zpow_natCast (2:ℚ) ((t3 - min (t1 + t2) t3).toNat), two_zpow_mul]
    congr 1
    omega
  show _ = toRat (.fin s1 m1 t1) * toRat (.fin s2 m2 t2) + toRat (.fin s3 m3 t3)
  unfold toRat
  push_cast [cast_condSign]
  rw [condSign_mul]
  linear_combination ((cond s1 (-1:ℚ) 1) * (cond s2 (-1:ℚ) 1) * ((m1:ℚ) * (m2:ℚ))) * hA
    + ((cond s3 (-1:ℚ) 1) * (m3:ℚ)) * hB

theorem fmaF64_le_pow (j : Int) (hj1 : -1074 ≤ j) (hj2 : j ≤ 971)
    (s1 s2 s3 : Bool) (m1 m2 m3 : Nat) (t1 t2 t3 : Int)
    (hE : |toRat (.fin s1 m1 t1) * toRat (.fin s2 m2 t2) + toRat (.fin s3 m3 t3)|
      ≤ (2:ℚ)^j) :
    ∃ sz mz tz, fmaF64 (.fin s1 m1 t1) (.fin s2 m2 t2) (.fin s3 m3 t3) = .fin sz mz tz ∧
      |toRat (.fin sz mz tz)| ≤ (2:ℚ)^j ∧ ValidB (.fin sz mz tz) = true := by
  have hz := fma_z_val s1 s2 s3 m1 m2 m3 t1 t2 t3
  set e := min (t1 + t2) t3 with hee
  set z : Int := (cond (s1 != s2) (-1:Int) 1) * ((m1 * m2 * 2^((t1 + t2 - e).toNat) : Nat) : Int)
      + (cond s3 (-1:Int) 1) * ((m3 * 2^((t3 - e).toNat) : Nat) : Int) with hzz
  have hred : fmaF64 (.fin s1 m1 t1) (.fin s2 m2 t2) (.fin s3 m3 t3)
      = if z = 0 then
          (if m1 * m2 = 0 ∧ m3 = 0 then .fin ((s1 != s2) && s3) 0 (-1074)
           else .fin false 0 (-1074))
        else mkDyadic (decide (z < 0)) z.natAbs e := rfl
  rw [hred]
  by_cases hz0 : z = 0
  · rw [if_pos hz0]
    have hzero : ∀ sz : Bool, |toRat (.fin sz 0 (-1074))| ≤ (2:ℚ)^j := by
      intro sz
      rw [abs_toRat_fin, Nat.cast_zero, zero_mul]
      exact le_of_lt (two_zpow_pos j)
    have hvalid : ∀ sz : Bool, ValidB (.fin sz 0 (-1074)) = true := by
      intro sz
      exact validB_fin_iff.mpr ⟨by norm_num, le_rfl, by norm_num, Or.inr rfl⟩
    split
    · exact ⟨_, 0, -1074, rfl, hzero _, hvalid _⟩
    · exact ⟨_, 0, -1074, rfl, hzero _, hvalid _⟩
  · rw [if_neg hz0]
    have habs : (z.natAbs : ℚ) * (2:ℚ)^e ≤ (2:ℚ)^j := by
      calc (z.natAbs : ℚ) * (2:ℚ)^e = |(z:ℚ)| * (2:ℚ)^e := by rw [Int.cast_natAbs, Int.cast_abs]
        _ = |(z:ℚ) * (2:ℚ)^e| := by rw [abs_mul, abs_of_pos (two_zpow_pos e)]
        _ ≤ (2:ℚ)^j := by rw [hz]; exact hE
    have hp : ((z.natAbs * 2^(e.toNat) : Nat) : ℚ)
        ≤ (2:ℚ)^j * ((2^((-e).toNat) : Nat) : ℚ) := by
      rw [Nat.cast_mul, natCast_two_pow, natCast_two_pow,
        show ((e.toNat : Nat) : Int) = e + (((-e).toNat : Nat) : Int) by omega,
        ← two_zpow_mul, ← mul_assoc]
      exact mul_le_mul_of_nonneg_right habs (le_of_lt (two_zpow_pos _))
    obtain ⟨Mc, Tc, hout, hval⟩ := ofRatPos_le_pow (decide (z < 0))
      (z.natAbs * 2^(e.toNat)) (2^((-e).toNat)) j (pow_pos (by norm_num) _) hj1 hj2 hp
    refine ⟨_, Mc, Tc, hout, ?_, ?_⟩
    · rw [abs_toRat_fin]
      exact hval
    · have hvv := ofRatPos_valid (decide (z < 0)) (z.natAbs * 2^(e.toNat))
        (2^((-e).toNat)) (pow_pos (by norm_num) _)
      rw [hout] at hvv
      exact hvv

/-! The executable comparisons decide the rational order. -/

theorem shiftVal (s0 : Bool) (m0 : Nat) (t0 E : Int) (h : E ≤ t0) :
    (((cond s0 (-1:Int) 1) * ((m0 * 2^((t0 - E).toNat) : Nat) : Int) : Int) : ℚ) * (2:ℚ)^E
      = toRat (.fin s0 m0 t0) := by
  unfold toRat
  push_cast [cast_condSign]
  rw [mul_assoc, mul_assoc, mul_assoc]
  congr 2
  rw [← zpow_natCast (2:ℚ) ((t0 - E).toNat), two_zpow_mul]
  congr 1
  omega

theorem finLe_iff (s : Bool) (m : Nat) (t : Int) (s' : Bool) (m' : Nat) (t' : Int) :
    finLe s m t s' m' t' = true ↔ toRat (.fin s m t) ≤ toRat (.fin s' m' t') := by
  unfold finLe
  dsimp only
  rw [decide_eq_true_iff]
  constructor
  · intro h
    have hq : (((cond s (-1:Int) 1) * ((m * 2^((t - min t t').toNat) : Nat) : Int) : Int) : ℚ)
        ≤ (((cond s' (-1:Int) 1) * ((m' * 2^((t' - min t t').toNat) : Nat) : Int) : Int) : ℚ) := by
      exact_mod_cast h
    have h2 := mul_le_mul_of_nonneg_right hq (le_of_lt (two_zpow_pos (min t t')))
    rwa [shiftVal s m t _ (min_le_left _ _), shiftVal s' m' t' _ (min_le_right _ _)] at h2
  · intro h
    rw [← shiftVal s m t (min t t') (min_le_left _ _),
      ← shiftVal s' m' t' (min t t') (min_le_right _ _)] at h
    have h2 := le_of_mul_le_mul_right h (two_zpow_pos (min t t'))
    exact_mod_cast h2

theorem flt_fin_iff (s : Bool) (m : Nat) (t : Int) (s' : Bool) (m' : Nat) (t' : Int) :
    flt (.fin s m t) (.fin s' m' t') = true ↔
      toRat (.fin s m t) < toRat (.fin s' m' t') := by
  show (!(finLe s' m' t' s m t) && !false && !false) = true ↔ _
  rw [Bool.not_false, Bool.and_true, Bool.and_true, Bool.not_eq_true']
  constructor
  · intro h
    refine not_le.mp (fun hc => ?_)
    rw [Bool.eq_false_iff] at h
    exact h ((finLe_iff s' m' t' s m t).mpr hc)
  · intro h
    rw [Bool.eq_false_iff]
    intro hc
    exact absurd ((finLe_iff s' m' t' s m t).mp hc) (not_le.mpr h)

theorem fge_fin_false (s : Bool) (m : Nat) (t : Int) (s' : Bool) (m' : Nat) (t' : Int)
    (h : toRat (.fin s m t) < toRat (.fin s' m' t')) :
    fge (.fin s m t) (.fin s' m' t') = false := by
  show finLe s' m' t' s m t = false
  rw [Bool.eq_false_iff]
  intro hc
  exact absurd ((finLe_iff s' m' t' s m t).mp hc) (not_le.mpr h)

/-! Rational values of the constants used by the reduction. -/

theorem toRat_fin_false (m : Nat) (t : Int) : toRat (.fin false m t) = (m:ℚ) * (2:ℚ)^t := by
  show (cond false (-1:ℚ) 1) * (m:ℚ) * (2:ℚ)^t = (m:ℚ) * (2:ℚ)^t
  norm_num

theorem toRat_fin_true (m : Nat) (t : Int) : toRat (.fin true m t) = -((m:ℚ) * (2:ℚ)^t) := by
  show (cond true (-1:ℚ) 1) * (m:ℚ) * (2:ℚ)^t = -((m:ℚ) * (2:ℚ)^t)
  norm_num

theorem toRat_negHalfF64 : toRat negHalfF64 = -(1/2) := by
  show toRat (.fin true (2^52) (-53)) = -(1/2)
  rw [toRat_fin_true, natCast_two_pow, two_zpow_mul]
  norm_num

theorem toRat_pow1023F64 : toRat pow1023F64 = (2:ℚ)^(1023:Int) := by
  show toRat (.fin false (2^52) 971) = (2:ℚ)^(1023:Int)
  rw [toRat_fin_false, natCast_two_pow, two_zpow_mul]
  norm_num

/-! Definitional reductions of the entry points at a finite argument. -/

theorem sinpi_fin_eq (s : Bool) (m : Nat) (t : Int) :
    sinpi (.fin s m t) =
      (if fge (F64.abs (.fin s m t)) (floorF64 maxF64)
       then .ok (F64.copysign zeroF64 (.fin s m t))
       else
        let n := roundF64 (mulF64 twoF64 (F64.abs (.fin s m t)))
        let rx := fmaF64 negHalfF64 n (F64.abs (.fin s m t))
        let q := (castI64 n).emod 4
        .ok (F64.copysign
          (if q = 0 then sinpi_kernel rx
           else if q = 1 then cospi_kernel rx
           else if q = 2 then subF64 zeroF64 (sinpi_kernel rx)
           else subF64 zeroF64 (cospi_kernel rx)) (.fin s m t))) := rfl

theorem cospi_fin_eq (s : Bool) (m : Nat) (t : Int) :
    cospi (.fin s m t) =
      (if fge (F64.abs (.fin s m t)) (floorF64 maxF64)
       then .ok (F64.copysign oneF64 (.fin s m t))
       else
        let n := roundF64 (mulF64 twoF64 (F64.abs (.fin s m t)))
        let rx := fmaF64 negHalfF64 n (F64.abs (.fin s m t))
        let q := (castI64 n).emod 4
        .ok (if q = 0 then cospi_kernel rx
           else if q = 1 then subF64 zeroF64 (sinpi_kernel rx)
           else if q = 2 then subF64 zeroF64 (cospi_kernel rx)
           else sinpi_kernel rx)) := rfl

theorem sincospi_fin_eq (s : Bool) (m : Nat) (t : Int) :
    sincospi (.fin s m t) =
      (if fge (F64.abs (.fin s m t)) (floorF64 maxF64)
       then .ok (F64.copysign zeroF64 (.fin s m t), F64.copysign oneF64 (.fin s m t))
       else
        let n := roundF64 (mulF64 twoF64 (F64.abs (.fin s m t)))
        let rx := fmaF64 negHalfF64 n (F64.abs (.fin s m t))
        let q := (castI64 n).emod 4
        let si := sinpi_kernel rx
        let co := cospi_kernel rx
        .ok (if q = 0 then (F64.copysign si (.fin s m t), co)
           else if q = 1 then (F64.copysign co (.fin s m t), subF64 zeroF64 si)
           else if q = 2 then
             (F64.copysign (subF64 zeroF64 si) (.fin s m t), subF64 zeroF64 co)
           else (F64.copysign (subF64 zeroF64 co) (.fin s m t), si))) := rfl

/-! Settling the claims. -/

/-- C8: sinpi, cospi and sincospi map NaN to NaN (both components for the
paired form), returning successfully rather than failing. -/
theorem c8_nan_propagation :
    sinpi .nan = .ok .nan ∧ cospi .nan = .ok .nan ∧
      sincospi .nan = .ok (.nan, .nan) :=
  ⟨rfl, rfl, rfl⟩

/-- C7: each of sinpi, cospi and sincospi fails exactly on infinite inputs:
the result is an error for an infinity and a successful value for every
other input (NaN included). -/
theorem c7_infinite_domain_error (x : F64) :
    isOkB (sinpi x) = !x.isInfinite ∧ isOkB (cospi x) = !x.isInfinite ∧
      isOkB (sincospi x) = !x.isInfinite := by
  cases x with
  | nan => exact ⟨rfl, rfl, rfl⟩
  | inf s => exact ⟨rfl, rfl, rfl⟩
  | fin s m t =>
    refine ⟨?_, ?_, ?_⟩
    · rw [sinpi_fin_eq]
      split <;> rfl
    · rw [cospi_fin_eq]
      split <;> rfl
    · rw [sincospi_fin_eq]
      split <;> rfl

/-- C6: for a finite input whose absolute value passes the saturation test
against floor(f64::MAX), sinpi returns 0 with the input's sign copied onto
it, cospi returns 1 with the input's sign copied onto it, and sincospi
returns the corresponding pair. -/
theorem c6_saturation (x : F64) (hfin : x.isFinite = true)
    (hge : fge x.abs (floorF64 maxF64) = true) :
    sinpi x = .ok (F64.copysign zeroF64 x) ∧
    cospi x = .ok (F64.copysign oneF64 x) ∧
    sincospi x = .ok (F64.copysign zeroF64 x, F64.copysign oneF64 x) := by
  cases x with
  | nan => exact absurd hfin (by decide)
  | inf s => exact absurd hfin (by simp [F64.isFinite])
  | fin s m t =>
    exact ⟨by rw [sinpi_fin_eq, if_pos hge], by rw [cospi_fin_eq, if_pos hge],
      by rw [sincospi_fin_eq, if_pos hge]⟩

theorem c6_saturation_witness :
    F64.isFinite maxF64 = true ∧ fge maxF64.abs (floorF64 maxF64) = true ∧
    (sinpi maxF64 = .ok (F64.copysign zeroF64 maxF64) ∧
     cospi maxF64 = .ok (F64.copysign oneF64 maxF64) ∧
     sincospi maxF64 = .ok (F64.copysign zeroF64 maxF64, F64.copysign oneF64 maxF64)) :=
  ⟨by decide, by decide, c6_saturation maxF64 (by decide) (by decide)⟩

/-- C5 (code bug): cospi is not even at the saturation threshold: the code
copies the input sign onto the saturation result 1.0, so cospi(-f64::MAX)
returns -1.0 while cospi(f64::MAX) returns +1.0, although cos is even and
cos(pi*MAX) = 1 (MAX being an even integer). -/
theorem c5_cospi_not_even_at_max :
    cospi (F64.neg maxF64) = .ok (F64.neg oneF64) ∧ cospi maxF64 = .ok oneF64 ∧
      F64.neg oneF64 ≠ oneF64 :=
  ⟨rfl, rfl, by decide⟩

/-- C3: for every finite x, sincospi x returns exactly the pair of the values
returned by sinpi x and cospi x, bit pattern for bit pattern. -/
theorem c3_sincospi_consistent (x : F64) (hfin : x.isFinite = true) :
    ∃ sv cv, sinpi x = .ok sv ∧ cospi x = .ok cv ∧ sincospi x = .ok (sv, cv) := by
  cases x with
  | nan => exact absurd hfin (by decide)
  | inf s => exact absurd hfin (by simp [F64.isFinite])
  | fin s m t =>
    rw [sinpi_fin_eq, cospi_fin_eq, sincospi_fin_eq]
    by_cases hsat : fge (F64.abs (.fin s m t)) (floorF64 maxF64) = true
    · rw [if_pos hsat, if_pos hsat, if_pos hsat]
      exact ⟨_, _, rfl, rfl, rfl⟩
    · rw [if_neg hsat, if_neg hsat, if_neg hsat]
      dsimp only
      set n := roundF64 (mulF64 twoF64 (F64.abs (.fin s m t))) with hn
      set rx := fmaF64 negHalfF64 n (F64.abs (.fin s m t)) with hrx
      set q := (castI64 n).emod 4 with hq
      by_cases h0 : q = 0
      · simp only [h0, if_pos]
        exact ⟨_, _, rfl, rfl, rfl⟩
      · by_cases h1 : q = 1
        · simp only [if_neg h0, h1, if_pos]
          exact ⟨_, _, rfl, rfl, rfl⟩
        · by_cases h2 : q = 2
          · simp only [if_neg h0, if_neg h1, h2, if_pos]
            exact ⟨_, _, rfl, rfl, rfl⟩
          · simp only [if_neg h0, if_neg h1, if_neg h2]
            exact ⟨_, _, rfl, rfl, rfl⟩

theorem c3_sincospi_consistent_witness :
    F64.isFinite zeroF64 = true ∧
    (∃ sv cv, sinpi zeroF64 = .ok sv ∧ cospi zeroF64 = .ok cv ∧
      sincospi zeroF64 = .ok (sv, cv)) :=
  ⟨by decide, c3_sincospi_consistent zeroF64 (by decide)⟩


/-- C1 (counterexample): at x = 1.5 the reduction gives n = 3, rx = +0,
quadrant 3, and the table selects -cosK(0) = -1.0; but sinpi applies a final
copysign with the (positive) input and returns +1.0 instead. -/
theorem c1_counterexample :
    sinpi (ofDec false 15 (-1)) = .ok oneF64 ∧
    sinpiQuadSel (ofDec false 15 (-1)) = F64.neg oneF64 ∧
    oneF64 ≠ F64.neg oneF64 :=
  ⟨rfl, rfl, by decide⟩

/-- C1 (amended): for every finite non-negative input below the saturation
threshold, the value returned by sinpi equals the quadrant-table selection
with the sign of the input copied onto it (the quadrant being computed, as
in the code, from the saturating i64 cast of round(2x)). -/
theorem c1_amended (x : F64) (hfin : x.isFinite = true)
    (hpos : x.signBit = false)
    (hsat : fge x.abs (floorF64 maxF64) = false) :
    sinpi x = .ok (F64.copysign (sinpiQuadSel x) x) := by
  cases x with
  | nan => exact absurd hfin (by decide)
  | inf s => exact absurd hfin (by simp [F64.isFinite])
  | fin s m t =>
    have hs : s = false := hpos
    subst hs
    rw [sinpi_fin_eq, if_neg (by rw [hsat]; exact Bool.false_ne_true)]
    rfl

theorem c1_amended_witness :
    F64.isFinite (ofDec false 15 (-1)) = true ∧
    F64.signBit (ofDec false 15 (-1)) = false ∧
    fge (F64.abs (ofDec false 15 (-1))) (floorF64 maxF64) = false ∧
    sinpi (ofDec false 15 (-1))
      = .ok (F64.copysign (sinpiQuadSel (ofDec false 15 (-1))) (ofDec false 15 (-1))) :=
  ⟨by decide, by decide, by decide,
    c1_amended (ofDec false 15 (-1)) (by decide) (by decide) (by decide)⟩

/-- C2 (code bug): at x = 0.3 the returned values violate the identity
sin² + cos² = 1 by about 5.5e-5, far beyond the specified 1e-9 relative
tolerance (the sine kernel evaluates its minimax polynomial at x instead of
x²); moreover (separate failure) for x = 2^1023, a finite input, both sinpi
and cospi return NaN, so the identity does not even evaluate to a number. -/
theorem c2_identity_violated :
    sinpi (ofDec false 3 (-1)) = .ok (.fin false 7286977268806823 (-53)) ∧
    cospi (ofDec false 3 (-1)) = .ok (.fin false 5294722694796163 (-53)) ∧
    1/1000000000 <
      |toRat (.fin false 7286977268806823 (-53)) ^ 2
        + toRat (.fin false 5294722694796163 (-53)) ^ 2 - 1| ∧
    sinpi pow1023F64 = .ok .nan ∧ cospi pow1023F64 = .ok .nan :=
  ⟨rfl, rfl, by
    norm_num [toRat_fin_false, natCast_two_pow]
    rw [abs_of_pos (by norm_num)]
    norm_num, rfl, rfl⟩

/-- C9 (counterexample): the Horner fold starts at 0.0, and 0.0 * infinity
is NaN, so eval_poly at +infinity with the single coefficient 1.0 returns
NaN rather than the coefficient. -/
theorem c9_counterexample :
    eval_poly (.inf false) [oneF64] = .nan ∧ F64.nan ≠ oneF64 :=
  ⟨rfl, by decide⟩

/-- Adding a (canonically represented) zero to a valid double returns that
double, except that a zero operand may come back as a zero of the other
sign (IEEE sign rules for sums of zeros). -/
theorem addF64_zero_left (sz : Bool) (c : F64) (hc : ValidB c = true) :
    addF64 (.fin sz 0 (-1074)) c = c ∨
      (∃ s3 t3 s', c = .fin s3 0 t3 ∧ addF64 (.fin sz 0 (-1074)) c = .fin s' 0 (-1074)) := by
  cases c with
  | nan => exact Or.inl rfl
  | inf s3 => exact Or.inl rfl
  | fin s3 m3 t3 =>
    obtain ⟨hm53, ht1, ht2, hdisj⟩ := validB_fin_iff.mp hc
    set e := min (-52 + -1074 : Int) t3 with hE
    set z : Int := (cond (false != sz) (-1:Int) 1)
        * ((2^52 * 0 * 2^((-52 + -1074 - e).toNat) : Nat) : Int)
      + (cond s3 (-1:Int) 1) * ((m3 * 2^((t3 - e).toNat) : Nat) : Int) with hz
    have hred : addF64 (.fin sz 0 (-1074)) (.fin s3 m3 t3)
        = if z = 0 then
            (if 2^52 * 0 = 0 ∧ m3 = 0 then .fin ((false != sz) && s3) 0 (-1074)
             else .fin false 0 (-1074))
          else mkDyadic (decide (z < 0)) z.natAbs e := rfl
    set K : Nat := m3 * 2^((t3 - e).toNat) with hK
    have hz2 : z = (cond s3 (-1:Int) 1) * (K : Int) := by
      rw [hz]
      simp
    rw [hred, hz2]
    by_cases hm0 : m3 = 0
    · have hK0 : K = 0 := by rw [hK, hm0, Nat.zero_mul]
      rw [hK0]
      simp only [Nat.cast_zero, mul_zero, if_pos rfl, Nat.mul_zero, eq_self_iff_true,
        true_and]
      rw [if_pos hm0]
      exact Or.inr ⟨s3, t3, (false != sz) && s3, by rw [hm0], rfl⟩
    · have hKpos : 0 < K := Nat.mul_pos (Nat.pos_of_ne_zero hm0) (pow_pos (by norm_num) _)
      have hzne : (cond s3 (-1:Int) 1) * (K : Int) ≠ 0 := by
        cases s3 <;> simp <;> omega
      rw [if_neg hzne]
      have hsgn : decide ((cond s3 (-1:Int) 1) * (K : Int) < 0) = s3 := by
        cases s3
        · simp only [cond]
          rw [decide_eq_false]
          omega
        · simp only [cond]
          rw [decide_eq_true]
          omega
      have habs : ((cond s3 (-1:Int) 1) * (K : Int)).natAbs = K := by
        cases s3 <;> simp
      rw [hsgn, habs]
      have hEt3 : e ≤ t3 := min_le_right _ _
      have hvalK : ((K : Nat) : ℚ) * (2:ℚ)^e = (m3:ℚ) * (2:ℚ)^t3 := by
        rw [hK]
        push_cast
        rw [mul_assoc, ← zpow_natCast (2:ℚ) ((t3 - e).toNat), two_zpow_mul]
        congr 2
        omega
      obtain ⟨Mc, Tc, h1, h2, h3, h4, h5, h6⟩ :=
        mkDyadic_exact s3 K e m3 t3 hm53 ht1 ht2 hvalK
      rw [h1]
      left
      rw [hvalK] at h2
      obtain ⟨hmm, htt⟩ := canon_unique h3 h6 h4 hm53 hdisj ht1 h2
      rw [hmm, htt]

/-- C9 (amended): eval_poly of the empty list is +0 for every input, and for
every finite x and every valid coefficient c, eval_poly x [c] returns c
itself, except that a zero coefficient may come back as a zero of the other
sign; for non-finite x the single-coefficient identity fails (see the
counterexample). -/
theorem c9_amended (x c : F64) (hx : x.isFinite = true) (hc : ValidB c = true) :
    (∀ y : F64, eval_poly y [] = zeroF64) ∧
    (eval_poly x [c] = c ∨
      (∃ s t s', c = .fin s 0 t ∧ eval_poly x [c] = .fin s' 0 (-1074))) := by
  refine ⟨fun y => rfl, ?_⟩
  cases x with
  | nan => exact absurd hx (by decide)
  | inf s => exact absurd hx (by simp [F64.isFinite])
  | fin sx mx tx =>
    have h1 : eval_poly (.fin sx mx tx) [c] = addF64 (mulF64 zeroF64 (.fin sx mx tx)) c := rfl
    have h2 : mulF64 zeroF64 (.fin sx mx tx) = .fin (false != sx) 0 (-1074) := by
      show mkDyadic (false != sx) (0 * mx) ((-1074) + tx) = _
      rw [Nat.zero_mul]
      show ofRatPos (false != sx) (0 * 2^(((-1074) + tx).toNat))
        (2^((-((-1074) + tx)).toNat)) = _
      rw [Nat.zero_mul]
      unfold ofRatPos
      rw [if_pos rfl]
    rw [h1, h2]
    exact addF64_zero_left (false != sx) c hc

theorem c9_amended_witness :
    F64.isFinite (ofDec false 3 0) = true ∧ ValidB (ofDec false 7 0) = true ∧
    ((∀ y : F64, eval_poly y [] = zeroF64) ∧
     (eval_poly (ofDec false 3 0) [ofDec false 7 0] = ofDec false 7 0 ∨
      (∃ s t s', ofDec false 7 0 = .fin s 0 t ∧
        eval_poly (ofDec false 3 0) [ofDec false 7 0] = .fin s' 0 (-1074)))) :=
  ⟨by decide, by decide, c9_amended (ofDec false 3 0) (ofDec false 7 0) (by decide) (by decide)⟩

/-- C4 (amended): for every finite valid input with |x| < 2^1023 (so that
2*|x| does not overflow), the reduced argument rx = fma(-0.5, round(2|x|),
|x|) that the dispatch passes to the kernels is a finite double in
[-1/4, 1/4] — not in [0, 1/4] as claimed: rx is frequently negative (see the
counterexample inside the proof of the original claim's falsity). -/
theorem c4_amended (x : F64) (hv : ValidB x = true) (hfin : x.isFinite = true)
    (hlt : flt x.abs pow1023F64 = true) :
    (fmaF64 negHalfF64 (roundF64 (mulF64 twoF64 x.abs)) x.abs).isFinite = true ∧
    -(1/4 : ℚ) ≤ toRat (fmaF64 negHalfF64 (roundF64 (mulF64 twoF64 x.abs)) x.abs) ∧
    toRat (fmaF64 negHalfF64 (roundF64 (mulF64 twoF64 x.abs)) x.abs) ≤ 1/4 := by
  cases x with
  | nan => exact absurd hfin (by decide)
  | inf s => exact absurd hfin (by simp [F64.isFinite])
  | fin s m t =>
    have habs : F64.abs (.fin s m t) = .fin false m t := rfl
    rw [habs] at hlt ⊢
    have hvf : ValidB (.fin false m t) = true := by
      obtain ⟨a, b, c', d⟩ := validB_fin_iff.mp hv
      exact validB_fin_iff.mpr ⟨a, b, c', d⟩
    have hlt' : (m:ℚ) * (2:ℚ)^t < (2:ℚ)^(1023:Int) := by
      rw [show pow1023F64 = F64.fin false (2^52) 971 from rfl] at hlt
      have h := (flt_fin_iff false m t false (2^52) 971).mp hlt
      rw [toRat_fin_false, toRat_fin_false, natCast_two_pow, two_zpow_mul] at h
      calc (m:ℚ) * (2:ℚ)^t < (2:ℚ)^((52:Nat) + (971:Int)) := h
        _ = (2:ℚ)^(1023:Int) := by norm_num
    obtain ⟨M2, T2, hmul, hmulval, hmulvalid⟩ := mulF64_two_exact false m t hvf hlt'
    obtain ⟨Mr, Tr, N, hround, hroundvalid, hroundval, hbound⟩ :=
      roundF64_int false M2 T2 hmulvalid
    rw [hmul, hround]
    rw [hmulval] at hbound
    have hnegh : negHalfF64 = F64.fin true (2^52) (-53) := rfl
    rw [hnegh]
    have hE : |toRat (.fin true (2^52) (-53)) * toRat (.fin false Mr Tr)
        + toRat (.fin false m t)| ≤ (2:ℚ)^(-2 : Int) := by
      have hh : toRat (F64.fin true (2^52) (-53)) = -(1/2) := toRat_negHalfF64
      rw [hh, toRat_fin_false, toRat_fin_false, hroundval]
      have heq : -(1/2) * (N:ℚ) + (m:ℚ) * (2:ℚ)^t
          = -(((N:ℚ) - 2 * ((m:ℚ) * (2:ℚ)^t)) / 2) := by ring
      rw [heq, abs_neg, abs_div, abs_two,
        show (2:ℚ)^(-2:Int) = (1/2)/2 by norm_num]
      exact (div_le_div_iff_of_pos_right (by norm_num)).mpr hbound
    obtain ⟨sz, mz, tz, hfma, habsle, hvalz⟩ :=
      fmaF64_le_pow (-2) (by norm_num) (by norm_num) true false false
        (2^52) Mr m (-53) Tr t hE
    rw [hfma]
    have h14 : ((2:ℚ)^(-2:Int)) = 1/4 := by norm_num
    rw [h14] at habsle
    obtain ⟨hlo, hhi⟩ := abs_le.mp habsle
    exact ⟨rfl, hlo, hhi⟩

/-- C4 (counterexample): at x = 0.4 the reduced argument actually passed to
the kernels is rx = fma(-0.5, round(2*0.4), 0.4) = -0.09999999999999998,
which is negative, contradicting the claimed invariant 0 ≤ rx. -/
theorem c4_counterexample :
    fmaF64 negHalfF64 (roundF64 (mulF64 twoF64 (F64.abs (ofDec false 4 (-1)))))
        (F64.abs (ofDec false 4 (-1)))
      = .fin true 7205759403792792 (-56) ∧
    toRat (.fin true 7205759403792792 (-56)) < 0 :=
  ⟨rfl, by
    rw [toRat_fin_true]
    exact neg_lt_zero.mpr (by positivity)⟩

theorem c4_amended_witness :
    ValidB (ofDec false 4 (-1)) = true ∧
    F64.isFinite (ofDec false 4 (-1)) = true ∧
    flt (F64.abs (ofDec false 4 (-1))) pow1023F64 = true ∧
    ((fmaF64 negHalfF64 (roundF64 (mulF64 twoF64 (F64.abs (ofDec false 4 (-1)))))
        (F64.abs (ofDec false 4 (-1)))).isFinite = true ∧
     -(1/4 : ℚ) ≤ toRat (fmaF64 negHalfF64
        (roundF64 (mulF64 twoF64 (F64.abs (ofDec false 4 (-1)))))
        (F64.abs (ofDec false 4 (-1)))) ∧
     toRat (fmaF64 negHalfF64 (roundF64 (mulF64 twoF64 (F64.abs (ofDec false 4 (-1)))))
        (F64.abs (ofDec false 4 (-1)))) ≤ 1/4) :=
  ⟨by decide, by decide, by decide,
    c4_amended (ofDec false 4 (-1)) (by decide) (by decide) (by decide)⟩

/-- C10: for every valid input x with f64::MAX/2 < |x| < f64::MAX, the
doubling 2*|x| in the range reduction overflows to +infinity, the reduction
fma then yields -infinity, the kernels' Horner fold multiplies 0.0 by the
infinity and propagates NaN, and all of sinpi, cospi, sincospi return NaN
(a NaN pair for sincospi). -/
theorem c10_overflow_nan (x : F64) (hv : ValidB x = true)
    (h1 : flt maxHalfF64 x.abs = true) (h2 : flt x.abs maxF64 = true) :
    sinpi x = .ok .nan ∧ cospi x = .ok .nan ∧ sincospi x = .ok (.nan, .nan) := by
  cases x with
  | nan => exact absurd h1 (by decide)
  | inf s =>
    have hai : F64.abs (F64.inf s) = F64.inf false := rfl
    rw [hai] at h2
    exact absurd h2 (by decide)
  | fin s m t =>
    obtain ⟨hm53, ht1, ht2, hdisj⟩ := validB_fin_iff.mp hv
    have habs : F64.abs (.fin s m t) = .fin false m t := rfl
    rw [habs] at h1 h2
    have hub : (m:ℚ) * (2:ℚ)^t < ((2^53 - 1 : Nat) : ℚ) * (2:ℚ)^(971:Int) := by
      have h := (flt_fin_iff false m t false (2^53 - 1) 971).mp h2
      rwa [toRat_fin_false, toRat_fin_false] at h
    have hlb : ((2^53 - 1 : Nat) : ℚ) * (2:ℚ)^(970:Int) < (m:ℚ) * (2:ℚ)^t := by
      have h := (flt_fin_iff false (2^53 - 1) 970 false m t).mp h1
      rwa [toRat_fin_false, toRat_fin_false] at h
    have ht971 : t = 971 := by
      by_contra hne
      have htle : t ≤ 970 := by omega
      have hcon : (m:ℚ) * (2:ℚ)^t ≤ ((2^53 - 1 : Nat) : ℚ) * (2:ℚ)^(970:Int) := by
        calc (m:ℚ) * (2:ℚ)^t ≤ ((2^53 - 1 : Nat) : ℚ) * (2:ℚ)^t := by
              refine mul_le_mul_of_nonneg_right ?_ (le_of_lt (two_zpow_pos t))
              exact_mod_cast (by omega : m ≤ 2^53 - 1)
          _ ≤ ((2^53 - 1 : Nat) : ℚ) * (2:ℚ)^(970:Int) :=
              mul_le_mul_of_nonneg_left (two_zpow_le htle) (by positivity)
      linarith
    subst ht971
    have hm1 : m ≤ 2^53 - 2 := by
      by_contra hcon
      have hm' : m = 2^53 - 1 := by omega
      rw [hm'] at hub
      exact absurd hub (lt_irrefl _)
    have hm2 : 2^52 ≤ m := by
      rcases hdisj with h | h
      · exact h
      · omega
    have hmul : mulF64 twoF64 (.fin false m 971) = .inf false := by
      show ofRatPos false (2^52 * m * 2^(((-51:Int) + 971).toNat))
        (2^((-((-51:Int) + 971)).toNat)) = _
      rw [show (((-51:Int) + 971).toNat) = 920 from rfl,
        show ((-((-51:Int) + 971)).toNat) = 0 from rfl]
      refine ofRatPos_overflow false _ _ (by norm_num) ?_
      rw [show ((2^0 : Nat) : ℚ) = 1 by norm_num, mul_one]
      have hcast : ((2^52 * m * 2^920 : Nat) : ℚ) = (m:ℚ) * (2:ℚ)^(972:Int) := by
        rw [Nat.cast_mul, Nat.cast_mul, natCast_two_pow, natCast_two_pow,
          mul_comm ((2:ℚ)^(((52:Nat)):Int)) (m:ℚ), mul_assoc, two_zpow_mul]
        norm_num
      rw [hcast]
      calc (2:ℚ)^(1024:Int) = ((2^52 : Nat) : ℚ) * (2:ℚ)^(972:Int) := by
            rw [natCast_two_pow, two_zpow_mul]
            norm_num
        _ ≤ (m:ℚ) * (2:ℚ)^(972:Int) := by
            refine mul_le_mul_of_nonneg_right ?_ (le_of_lt (two_zpow_pos _))
            exact_mod_cast hm2
    have hsat : fge (F64.fin false m 971) (floorF64 maxF64) = false := by
      refine fge_fin_false false m 971 false (2^53 - 1) 971 ?_
      rw [toRat_fin_false, toRat_fin_false]
      exact hub
    have habs' : F64.abs (.fin s m 971) = .fin false m 971 := rfl
    have hrx : fmaF64 negHalfF64 (roundF64 (F64.inf false)) (.fin false m 971)
        = F64.inf true := rfl
    have hq : (castI64 (roundF64 (F64.inf false))).emod 4 = 3 := rfl
    refine ⟨?_, ?_, ?_⟩
    · rw [sinpi_fin_eq, habs', if_neg (by rw [hsat]; exact Bool.false_ne_true)]
      dsimp only
      rw [hmul, hq, hrx]
      rw [if_neg (by decide), if_neg (by decide), if_neg (by decide)]
      rw [show subF64 zeroF64 (cospi_kernel (F64.inf true)) = F64.nan from rfl]
      rfl
    · rw [cospi_fin_eq, habs', if_neg (by rw [hsat]; exact Bool.false_ne_true)]
      dsimp only
      rw [hmul, hq, hrx]
      rw [if_neg (by decide), if_neg (by decide), if_neg (by decide)]
      rw [show sinpi_kernel (F64.inf true) = F64.nan from rfl]
    · rw [sincospi_fin_eq, habs', if_neg (by rw [hsat]; exact Bool.false_ne_true)]
      dsimp only
      rw [hmul, hq, hrx]
      rw [if_neg (by decide), if_neg (by decide), if_neg (by decide)]
      rw [show sinpi_kernel (F64.inf true) = F64.nan from rfl,
        show cospi_kernel (F64.inf true) = F64.nan from rfl]
      rfl

theorem c10_overflow_nan_witness :
    ValidB pow1023F64 = true ∧
    flt maxHalfF64 pow1023F64.abs = true ∧
    flt pow1023F64.abs maxF64 = true ∧
    (sinpi pow1023F64 = .ok .nan ∧ cospi pow1023F64 = .ok .nan ∧
      sincospi pow1023F64 = .ok (.nan, .nan)) :=
  ⟨by decide, by decide, by decide,
    c10_overflow_nan pow1023F64 (by decide) (by decide) (by decide)⟩
